import Mathlib

/-!
Verification development for the Perception-Data-Extraction utilities
(`src/questionnaire.py` and `src/task_data.py`).

The two Python files share a text cleaner `_clean_text` and a CSV column
filter `filter_csv_columns`; `task_data.py` additionally runs a run-sampling
pass keyed on column index 51 before projecting columns.  Strings are
modelled as Lean `String`/`List Char`; the regex substitutions of the
cleaner are modelled as explicit scanning functions mirroring Python
`re.sub` semantics for the concrete patterns the source uses.
-/

set_option autoImplicit false

namespace PDE

/-- ASCII fragment of the character class matched by the whitespace
pattern in the source regexes (space, tab, newline, carriage return,
vertical tab, form feed).  Python also accepts further Unicode whitespace,
which no modelled input contains. -/
def isSpaceChar (c : Char) : Bool :=
  c = ' ' || c = '\t' || c = '\n' || c = '\r' || c = '\x0b' || c = '\x0c'

/-- Skip the whitespace consumed by a greedy whitespace-star in the tag
patterns of src lines 25-29. -/
def dropSpaces (l : List Char) : List Char :=
  l.dropWhile isSpaceChar

/-- The character test of the generic tag pattern body at src line 31:
any character other than a closing angle bracket. -/
def notGt (c : Char) : Bool :=
  c != '>'

/-- Prefix match of the generic tag pattern of src line 31 (an opening
angle bracket, one or more non-closing characters, a closing angle
bracket).  Returns the remainder after the match, or `none` when no match
starts at the head.  The body being a negated single-character class, the
match necessarily ends at the first closing bracket after the head. -/
def matchGeneric (l : List Char) : Option (List Char) :=
  match l with
  | c :: rest =>
    if c = '<' then
      match rest.dropWhile notGt with
      | '>' :: r => if rest.takeWhile notGt = [] then none else some r
      | _ => none
    else none
  | [] => none

/-- Case-insensitive literal match of a (lowercase) tag name, as the
`IGNORECASE` alternatives in src lines 25-29; returns the remainder. -/
def matchCI : List Char → List Char → Option (List Char)
  | [], l => some l
  | _ :: _, [] => none
  | p :: ps, c :: cs => if c.toLower = p then matchCI ps cs else none

/-- Try each tag-name alternative in order, then optional whitespace and
the closing angle bracket of the opening or closing tag. -/
def matchNameGt (names : List (List Char)) (l : List Char) : Option (List Char) :=
  match names with
  | [] => none
  | nm :: ns =>
    match matchCI nm l with
    | some r =>
      match dropSpaces r with
      | '>' :: r2 => some r2
      | _ => matchNameGt ns l
    | none => matchNameGt ns l

/-- Prefix match of an opening tag `<` ws name ws `>` for one of the
given names (src lines 25-29, left half of each pattern). -/
def matchOpen (names : List (List Char)) (l : List Char) : Option (List Char) :=
  match l with
  | c :: rest => if c = '<' then matchNameGt names (dropSpaces rest) else none
  | [] => none

/-- Prefix match of a closing tag `<` ws `/` ws name ws `>` (src lines
25-29, right half of each pattern). -/
def matchClose (names : List (List Char)) (l : List Char) : Option (List Char) :=
  match l with
  | c :: rest =>
    if c = '<' then
      match dropSpaces rest with
      | '/' :: r2 => matchNameGt names (dropSpaces r2)
      | _ => none
    else none
  | [] => none

/-- Lazy content capture: find the shortest content (not containing a
newline, as an unflagged dot in Python) such that a closing tag for one
of the names follows; return the content and the remainder after the
closing tag. -/
def findClose (names : List (List Char)) : List Char → Option (List Char × List Char)
  | [] => none
  | c :: cs =>
    match matchClose names (c :: cs) with
    | some rest => some ([], rest)
    | none =>
      if c = '\n' then none
      else
        match findClose names cs with
        | some (content, rest) => some (c :: content, rest)
        | none => none

/-- Full-pattern match at the current position for one of the
open/content/close patterns of src lines 25-29: on success, the
replacement text (wrapper, captured content, wrapper) and the remainder. -/
def tryMatch (names : List (List Char)) (wl wr : List Char) (l : List Char) :
    Option (List Char × List Char) :=
  match matchOpen names l with
  | some afterOpen =>
    match findClose names afterOpen with
    | some (content, rest) => some (wl ++ content ++ wr, rest)
    | none => none
  | none => none

/-- The left-to-right non-overlapping substitution scan of `re.sub` for
the open/content/close patterns, with explicit fuel (one unit per scanned
position suffices; the top-level wrapper supplies the input length). -/
def subTagsF (names : List (List Char)) (wl wr : List Char) : Nat → List Char → List Char
  | 0, l => l
  | _ + 1, [] => []
  | f + 1, c :: cs =>
    match tryMatch names wl wr (c :: cs) with
    | some (rep, rest) => rep ++ subTagsF names wl wr f rest
    | none => c :: subTagsF names wl wr f cs

/-- One `re.sub` pass replacing matched tag pairs by wrapped content
(src lines 25, 27, 29). -/
def subTags (names : List (List Char)) (wl wr : List Char) (l : List Char) : List Char :=
  subTagsF names wl wr l.length l

/-- The `re.sub` scan of src line 31 removing every generic tag match,
with explicit fuel. -/
def stripTagsF : Nat → List Char → List Char
  | 0, l => l
  | _ + 1, [] => []
  | f + 1, c :: cs =>
    match matchGeneric (c :: cs) with
    | some r => stripTagsF f r
    | none => c :: stripTagsF f cs

/-- Removal of every remaining generic tag (src line 31). -/
def stripTags (l : List Char) : List Char :=
  stripTagsF l.length l

/-- The fragment of Unicode canonical composition (NFC, invoked at src
line 33) that can affect the generic tag pattern: NFC composes an angle
bracket immediately followed by the combining long solidus overlay
U+0338 into the single negated-comparison character (U+226E for the
opening bracket, U+226F for the closing one).  No other canonical
composition creates or removes an ASCII angle bracket, and compositions
among other characters cannot move bracket positions; those are
modelled as the identity. -/
def nfcNormalize : List Char → List Char
  | a :: b :: rest =>
    if a = '<' && b = '\u0338' then '\u226E' :: nfcNormalize rest
    else if a = '>' && b = '\u0338' then '\u226F' :: nfcNormalize rest
    else a :: nfcNormalize (b :: rest)
  | l => l

/-- Python `str.isprintable` on the modelled character fragment: a
character is printable unless it is a control character.  Outside ASCII,
Python additionally rejects separator and format categories; no modelled
input contains such characters. -/
def isprintable (c : Char) : Bool :=
  !(c.toNat < 32 || c.toNat == 127)

/-- The character filter of src line 35: keep printable characters and
always keep tab, newline and carriage return. -/
def keepChar (c : Char) : Bool :=
  isprintable c || c = '\t' || c = '\n' || c = '\r'

/-- Tag-name alternatives of the three conversion patterns. -/
def bChars : List Char := ['b']

def strongChars : List Char := ['s', 't', 'r', 'o', 'n', 'g']

def iChars : List Char := ['i']

def emChars : List Char := ['e', 'm']

def uChars : List Char := ['u']

/-- Embedding of `_clean_text` (src/questionnaire.py and
src/task_data.py, lines 7-35).  The Python guard returning non-string
values unchanged is outside the typed embedding, which treats string
cells only. -/
def clean_text (value : String) : String :=
  let text := value.data
  let text := subTags [bChars, strongChars] ['*', '*'] ['*', '*'] text
  let text := subTags [iChars, emChars] ['*'] ['*'] text
  let text := subTags [uChars] ['_'] ['_'] text
  let text := stripTags text
  let normalized := nfcNormalize text
  String.mk (normalized.filter keepChar)

/-- A tag (in the sense of the generic pattern of src line 31) occurs
somewhere in the character list. -/
def hasTag : List Char → Bool
  | [] => false
  | c :: cs => (matchGeneric (c :: cs)).isSome || hasTag cs

/-- The side condition on tag-name alternative lists used by the
open-tag lemmas: every alternative is non-empty and contains no closing
angle bracket (true of all five name lists above). -/
def goodNames (names : List (List Char)) : Bool :=
  names.all fun nm => !nm.isEmpty && !nm.contains '>'

/-- The code-point ranges on which Python `str.isdigit` accepts a
character: Numeric_Type Decimal (the decimal-digit categories) together
with Numeric_Type Digit (superscripts, subscripts, circled digits and
the like, e.g. U+00B2), taken from the unicodedata tables. -/
def pyDigitRanges : List (Nat × Nat) := [
    (0x30, 0x39), (0xB2, 0xB3), (0xB9, 0xB9), (0x660, 0x669),
    (0x6F0, 0x6F9), (0x7C0, 0x7C9), (0x966, 0x96F), (0x9E6, 0x9EF),
    (0xA66, 0xA6F), (0xAE6, 0xAEF), (0xB66, 0xB6F), (0xBE6, 0xBEF),
    (0xC66, 0xC6F), (0xCE6, 0xCEF), (0xD66, 0xD6F), (0xDE6, 0xDEF),
    (0xE50, 0xE59), (0xED0, 0xED9), (0xF20, 0xF29), (0x1040, 0x1049),
    (0x1090, 0x1099), (0x1369, 0x1371), (0x17E0, 0x17E9), (0x1810, 0x1819),
    (0x1946, 0x194F), (0x19D0, 0x19DA), (0x1A80, 0x1A89), (0x1A90, 0x1A99),
    (0x1B50, 0x1B59), (0x1BB0, 0x1BB9), (0x1C40, 0x1C49), (0x1C50, 0x1C59),
    (0x2070, 0x2070), (0x2074, 0x2079), (0x2080, 0x2089), (0x2460, 0x2468),
    (0x2474, 0x247C), (0x2488, 0x2490), (0x24EA, 0x24EA), (0x24F5, 0x24FD),
    (0x24FF, 0x24FF), (0x2776, 0x277E), (0x2780, 0x2788), (0x278A, 0x2792),
    (0xA620, 0xA629), (0xA8D0, 0xA8D9), (0xA900, 0xA909), (0xA9D0, 0xA9D9),
    (0xA9F0, 0xA9F9), (0xAA50, 0xAA59), (0xABF0, 0xABF9), (0xFF10, 0xFF19),
    (0x104A0, 0x104A9), (0x10A40, 0x10A43), (0x10D30, 0x10D39), (0x10E60, 0x10E68),
    (0x11052, 0x1105A), (0x11066, 0x1106F), (0x110F0, 0x110F9), (0x11136, 0x1113F),
    (0x111D0, 0x111D9), (0x112F0, 0x112F9), (0x11450, 0x11459), (0x114D0, 0x114D9),
    (0x11650, 0x11659), (0x116C0, 0x116C9), (0x11730, 0x11739), (0x118E0, 0x118E9),
    (0x11950, 0x11959), (0x11C50, 0x11C59), (0x11D50, 0x11D59), (0x11DA0, 0x11DA9),
    (0x16A60, 0x16A69), (0x16AC0, 0x16AC9), (0x16B50, 0x16B59), (0x1D7CE, 0x1D7FF),
    (0x1E140, 0x1E149), (0x1E2F0, 0x1E2F9), (0x1E950, 0x1E959), (0x1F100, 0x1F10A),
    (0x1FBF0, 0x1FBF9)]

/-- A single character accepted by Python `str.isdigit`. -/
def pyDigitChar (c : Char) : Bool :=
  pyDigitRanges.any fun p => decide (p.1 ≤ c.toNat) && decide (c.toNat ≤ p.2)

/-- Python `str.isdigit` on the key-column value (src/task_data.py line
77): non-empty and every character a Unicode digit character.  Note this
is wider than the decimal digits: it also accepts characters such as
U+00B2 (a superscript two). -/
def isdigit (s : String) : Bool :=
  !s.data.isEmpty && s.data.all pyDigitChar

/-- The inner scan of src/task_data.py lines 79-82: split off the longest
prefix of rows whose cell at index 51 exists (row longer than 51 cells)
and equals `num`, returning that prefix and the remaining rows.  The
source runs this scan from the run's first row; since that row always
satisfies the condition when its key value is a non-empty digit string,
the embedding applies the scan to the remaining rows and the caller
prepends the first row. -/
def splitRun (num : String) : List (List String) → List (List String) × List (List String)
  | [] => ([], [])
  | r :: rs =>
    if 51 < r.length && List.getD r 51 "" == num then
      (r :: (splitRun num rs).1, (splitRun num rs).2)
    else ([], r :: rs)

/-- The run-sampling loop of src/task_data.py lines 72-93 with explicit
fuel (one unit per loop iteration suffices; the wrapper supplies the row
count).  At each position: read the key value at index 51 (empty when
absent); if it is a digit string, delimit the run of consecutive rows
with that exact key value, keep the run's first row, and when the run has
more than three rows also its fourth row, but only when the run has at
least five rows; otherwise drop the single row and advance by one. -/
def sampleF : Nat → List (List String) → List (List String)
  | 0, l => l
  | _ + 1, [] => []
  | f + 1, r :: rs =>
    if isdigit (List.getD r 51 "") then
      let run := r :: (splitRun (List.getD r 51 "") rs).1
      let rest := (splitRun (List.getD r 51 "") rs).2
      (if 5 ≤ run.length then
        r :: (if 3 < run.length then [List.getD run 3 []] else [])
       else []) ++ sampleF f rest
    else
      sampleF f rs

/-- The run sampler applied to the data rows (src/task_data.py lines
72-93). -/
def sample (l : List (List String)) : List (List String) :=
  sampleF l.length l

/-- The condition under which the scan of src/task_data.py line 81 stops:
the next row (when there is one) is out of range at index 51 or holds a
different key value, so the run cannot extend into `l`. -/
def breaksRun (k : String) (l : List (List String)) : Bool :=
  match l with
  | [] => true
  | y :: _ => !(51 < y.length && List.getD y 51 "" == k)

/-- A concrete 52-cell row with tag `t` in the first cell and key value
`k` at index 51, used by the concrete witness instances. -/
def tagRow (t k : String) : List String :=
  t :: List.replicate 50 "" ++ [k]

/-- Column projection of a single row, as the list comprehensions at
src/questionnaire.py lines 67 and 71 and src/task_data.py lines 67 and
97: the cells at the listed indices, in list order, indices out of range
for the row silently skipped. -/
def projectRow (columns : List Nat) (row : List String) : List String :=
  columns.filterMap fun i => row.get? i

/-- Observable outcome of one `filter_csv_columns` call: the rows written
to the output file, the diagnostic or success message printed, and
whether the output file was opened (created/truncated) at all. -/
structure FCCResult where
  written : List (List String)
  message : String
  outputCreated : Bool
  deriving Repr, DecidableEq

namespace questionnaire

/-- Embedding of `filter_csv_columns` of src/questionnaire.py lines
38-81.  The filesystem read is abstracted as `contents`: `none` when
opening the input file raises FileNotFoundError (the output file is then
never opened, since the input file is opened first), otherwise the list
of CSV rows.  An empty file prints the is-empty diagnostic and returns
before writing any row; otherwise the projected header is written
verbatim and every projected data cell is passed through the cleaner. -/
def filter_csv_columns (input_file output_file : String)
    (contents : Option (List (List String))) (columns : List Nat) : FCCResult :=
  match contents with
  | none =>
    { written := []
      message := "Error: File \x27" ++ input_file ++ "\x27 not found."
      outputCreated := false }
  | some [] =>
    { written := []
      message := "Error: \x27" ++ input_file ++ "\x27 is empty."
      outputCreated := true }
  | some (header :: rows) =>
    { written :=
        projectRow columns header ::
          rows.map fun row => (projectRow columns row).map clean_text
      message := "Successfully wrote filtered CSV to " ++ output_file
      outputCreated := true }

end questionnaire

namespace task_data

/-- Embedding of `filter_csv_columns` of src/task_data.py lines 38-106:
as the questionnaire variant, but the data rows pass through the run
sampler before projection and cleaning. -/
def filter_csv_columns (input_file output_file : String)
    (contents : Option (List (List String))) (columns : List Nat) : FCCResult :=
  match contents with
  | none =>
    { written := []
      message := "Error: File \x27" ++ input_file ++ "\x27 not found."
      outputCreated := false }
  | some [] =>
    { written := []
      message := "Error: \x27" ++ input_file ++ "\x27 is empty."
      outputCreated := true }
  | some (header :: rows) =>
    { written :=
        projectRow columns header ::
          (sample rows).map fun row => (projectRow columns row).map clean_text
      message := "Successfully wrote filtered CSV to " ++ output_file
      outputCreated := true }

end task_data

/-! ### Run-sampler lemmas -/

theorem splitRun_snd_length (k : String) (l : List (List String)) :
    (splitRun k l).2.length ≤ l.length := by
  induction l with
  | nil => simp [splitRun]
  | cons r rs ih =>
    simp only [splitRun]
    split
    · simpa using Nat.le_succ_of_le ih
    · simp

theorem splitRun_append_eq (k : String) (l : List (List String)) :
    (splitRun k l).1 ++ (splitRun k l).2 = l := by
  induction l with
  | nil => simp [splitRun]
  | cons r rs ih =>
    simp only [splitRun]
    split
    · simpa using ih
    · simp

theorem splitRun_of_all (k : String) (l₁ l₂ : List (List String))
    (h₁ : ∀ x ∈ l₁, 51 < x.length ∧ List.getD x 51 "" = k)
    (h₂ : breaksRun k l₂ = true) :
    splitRun k (l₁ ++ l₂) = (l₁, l₂) := by
  induction l₁ with
  | nil =>
    cases l₂ with
    | nil => simp [splitRun]
    | cons y ys =>
      simp only [breaksRun, Bool.not_eq_true', Bool.and_eq_false_iff] at h₂
      simp only [List.nil_append, splitRun]
      rw [if_neg]
      simp only [Bool.and_eq_true, decide_eq_true_eq, beq_iff_eq, not_and]
      intro hlen heq
      rcases h₂ with h | h
      · exact absurd hlen (by simpa using h)
      · exact absurd heq (by simpa using h)
  | cons x xs ih =>
    have hx := h₁ x (by simp)
    have hcond : (decide (51 < x.length) && (List.getD x 51 "" == k)) = true := by
      simp only [Bool.and_eq_true, decide_eq_true_eq, beq_iff_eq]
      exact ⟨hx.1, hx.2⟩
    simp only [List.cons_append, splitRun, List.append_eq]
    rw [if_pos hcond, ih (fun y hy => h₁ y (by simp [hy]))]

theorem sampleF_fuel : ∀ (f : Nat) (l : List (List String)), l.length ≤ f →
    sampleF f l = sampleF l.length l := by
  intro f
  induction f using Nat.strong_induction_on with
  | _ f ih =>
    intro l hl
    cases l with
    | nil => cases f <;> rfl
    | cons r rs =>
      cases f with
      | zero => simp at hl
      | succ g =>
        simp only [List.length_cons] at hl
        have hf : rs.length ≤ g := Nat.succ_le_succ_iff.mp hl
        simp only [List.length_cons, sampleF]
        split
        · have hrest := splitRun_snd_length (List.getD r 51 "") rs
          rw [ih g (Nat.lt_succ_self g) _ (le_trans hrest hf),
              ih rs.length (Nat.lt_succ_of_le hf) _ hrest]
        · exact (ih g (Nat.lt_succ_self g) rs hf).trans
            (ih rs.length (Nat.lt_succ_of_le hf) rs le_rfl).symm

theorem getD_singleton_sublist {α : Type} (l : List α) (n : Nat) (d : α)
    (h : n < l.length) : List.Sublist [List.getD l n d] l := by
  rw [List.getD_eq_getElem _ _ h]
  exact List.singleton_sublist.mpr (List.getElem_mem h)

theorem sampleF_sublist : ∀ (f : Nat) (l : List (List String)),
    List.Sublist (sampleF f l) l := by
  intro f
  induction f with
  | zero => intro l; exact List.Sublist.refl l
  | succ g ih =>
    intro l
    cases l with
    | nil => exact List.Sublist.refl []
    | cons r rs =>
      simp only [sampleF]
      split
      · have hsub2 := ih (splitRun (List.getD r 51 "") rs).2
        have hkept : (if 5 ≤ (r :: (splitRun (List.getD r 51 "") rs).1).length then
              r :: (if 3 < (r :: (splitRun (List.getD r 51 "") rs).1).length then
                      [List.getD (r :: (splitRun (List.getD r 51 "") rs).1) 3 []]
                    else [])
            else []).Sublist (r :: (splitRun (List.getD r 51 "") rs).1) := by
          split
          · apply List.Sublist.cons₂
            split
            · next h3 =>
              rw [List.getD_cons_succ]
              refine getD_singleton_sublist _ 2 [] ?_
              simp only [List.length_cons] at h3
              omega
            · exact List.nil_sublist _
          · exact List.nil_sublist _
        have := List.Sublist.append hkept hsub2
        rw [List.cons_append, splitRun_append_eq] at this
        exact this
      · exact List.Sublist.cons r (ih rs)

/-- The sampler keeps a subset of the input rows in their original
relative order, each input row position at most once. -/
theorem sample_sublist (l : List (List String)) : List.Sublist (sample l) l :=
  sampleF_sublist l.length l

/-! ### Claims about the run sampler -/

/-- C1: the run sampler partitions consecutive rows whose key-column
(index 51) value is identical and all-digit into maximal runs; a run of
length at least 5 contributes exactly the run's first row (offset 0) and
fourth row (offset 3), while a run of length less than 5 (including
exactly 4) contributes nothing.  The hypotheses say the rows of `run`
form such a maximal run (non-empty, all carrying the digit key `k`, not
extending into `rest`). -/
theorem runSampler_run_rule (k : String) (run rest : List (List String))
    (hk : isdigit k = true) (hne : run ≠ [])
    (hall : ∀ r ∈ run, 51 < r.length ∧ List.getD r 51 "" = k)
    (hbr : breaksRun k rest = true) :
    sample (run ++ rest) =
      (if 5 ≤ run.length then [List.getD run 0 [], List.getD run 3 []] else []) ++
        sample rest := by
  obtain ⟨r, run', rfl⟩ := List.exists_cons_of_ne_nil hne
  have hr := hall r (by simp)
  have hsplit : splitRun k (run' ++ rest) = (run', rest) :=
    splitRun_of_all k run' rest (fun y hy => hall y (by simp [hy])) hbr
  have hfuel : rest.length ≤ (run' ++ rest).length := by
    simp [List.length_append]
  simp only [sample, List.cons_append, List.append_eq, List.length_cons, sampleF, hr.2, hk,
    eq_self_iff_true, if_true, hsplit]
  rw [sampleF_fuel _ _ hfuel]
  congr 1
  by_cases h5 : 5 ≤ run'.length + 1
  · rw [if_pos h5, if_pos h5, if_pos (show 3 < run'.length + 1 by omega), List.getD_cons_zero]
  · rw [if_neg h5, if_neg h5]

/-- Witness for C1: a run of six rows keyed "3" followed by one row keyed
"7"; the sampler keeps the rows at offsets 0 and 3 of the run and drops
the "7" row (a run of length 1). -/
theorem runSampler_run_rule_witness :
    isdigit "3" = true ∧ breaksRun "3" [tagRow "6" "7"] = true ∧
    sample ([tagRow "0" "3", tagRow "1" "3", tagRow "2" "3", tagRow "3" "3",
             tagRow "4" "3", tagRow "5" "3"] ++ [tagRow "6" "7"]) =
      [tagRow "0" "3", tagRow "3" "3"] := by
  refine ⟨by decide, by decide, ?_⟩
  rw [runSampler_run_rule "3"
    [tagRow "0" "3", tagRow "1" "3", tagRow "2" "3", tagRow "3" "3",
     tagRow "4" "3", tagRow "5" "3"] [tagRow "6" "7"]
    (by decide) (by decide) (by decide) (by decide)]
  decide

/-- C2 (amended): a row whose key-column (index 51) value is empty,
absent (row shorter than 52 cells), or contains a character that is not
a digit in Python's str.isdigit sense is dropped unconditionally,
advancing by one position; it is never grouped into a run, whatever rows
follow.  The original claim's "not a decimal digit" is too wide:
str.isdigit also accepts non-decimal Unicode digit characters such as
U+00B2, and rows so keyed are grouped into runs (see the
counterexample). -/
theorem runSampler_drops_nondigit (r : List String) (rest : List (List String))
    (hv : r.length ≤ 51 ∨ List.getD r 51 "" = "" ∨
      ∃ c ∈ (List.getD r 51 "").data, pyDigitChar c = false) :
    sample (r :: rest) = sample rest := by
  have hd : isdigit (List.getD r 51 "") = false := by
    rcases hv with h | h | ⟨c, hc, hcd⟩
    · rw [List.getD_eq_default _ _ h]
      rfl
    · rw [h]
      rfl
    · have hfa : (List.getD r 51 "").data.all pyDigitChar = false :=
        List.all_eq_false.mpr ⟨c, hc, by simp [hcd]⟩
      show (!(List.getD r 51 "").data.isEmpty &&
        (List.getD r 51 "").data.all pyDigitChar) = false
      rw [hfa, Bool.and_false]
  simp only [sample, List.length_cons, sampleF, hd]
  simp

/-- Witness for C2: a row keyed "abc" is dropped even though the adjacent
row carries the same non-numeric value. -/
theorem runSampler_drops_nondigit_witness :
    (∃ c ∈ (List.getD (tagRow "0" "abc") 51 "").data, pyDigitChar c = false) ∧
    sample [tagRow "0" "abc", tagRow "1" "abc"] = sample [tagRow "1" "abc"] := by
  refine ⟨by decide, ?_⟩
  exact runSampler_drops_nondigit (tagRow "0" "abc") [tagRow "1" "abc"]
    (Or.inr (Or.inr (by decide)))

/-- Counterexample to C2 as stated: U+00B2 (superscript two) is not a
decimal digit, yet five consecutive rows keyed by it form a run that
str.isdigit accepts, and the sampler keeps the rows at offsets 0 and 3
instead of dropping them unconditionally. -/
theorem runSampler_drops_nondigit_counterexample :
    (∃ c ∈ (List.getD (tagRow "0" "²") 51 "").data, c.isDigit = false) ∧
    sample [tagRow "0" "²", tagRow "1" "²", tagRow "2" "²",
            tagRow "3" "²", tagRow "4" "²"] =
      [tagRow "0" "²", tagRow "3" "²"] := by
  refine ⟨by decide, ?_⟩
  decide

/-! ### Text-cleaner lemmas and claims -/

/-! ### matchGeneric decomposition -/

theorem takeWhile_all_append (body tl : List Char)
    (hb : ∀ c ∈ body, notGt c = true) :
    (body ++ '>' :: tl).takeWhile notGt = body := by
  induction body with
  | nil => simp [List.takeWhile_cons, notGt]
  | cons c cs ih =>
    have hc : notGt c = true := hb c (by simp)
    simp only [List.cons_append, List.takeWhile_cons, hc, if_true]
    rw [ih (fun x hx => hb x (by simp [hx]))]

theorem dropWhile_all_append (body tl : List Char)
    (hb : ∀ c ∈ body, notGt c = true) :
    (body ++ '>' :: tl).dropWhile notGt = '>' :: tl := by
  induction body with
  | nil => simp [List.dropWhile_cons, notGt]
  | cons c cs ih =>
    have hc : notGt c = true := hb c (by simp)
    simp only [List.cons_append, List.dropWhile_cons, hc, if_true]
    exact ih (fun x hx => hb x (by simp [hx]))

theorem matchGeneric_eq_some {l r : List Char} (h : matchGeneric l = some r) :
    ∃ body, l = '<' :: body ++ '>' :: r ∧ body ≠ [] ∧ ∀ c ∈ body, notGt c = true := by
  cases l with
  | nil => exact absurd h (by simp [matchGeneric])
  | cons c rest =>
    by_cases hc : c = '<'
    · subst hc
      have h' : (match rest.dropWhile notGt with
          | '>' :: rr => if rest.takeWhile notGt = [] then none else some rr
          | _ => none) = some r := h
      split at h'
      · next rr heq =>
        by_cases htw : rest.takeWhile notGt = []
        · rw [if_pos htw] at h'
          exact absurd h' (by simp)
        · rw [if_neg htw] at h'
          obtain rfl : rr = r := by injection h'
          refine ⟨rest.takeWhile notGt, ?_, htw, fun x hx => List.mem_takeWhile_imp hx⟩
          have hsplit := List.takeWhile_append_dropWhile notGt rest
          rw [heq] at hsplit
          rw [List.cons_append, hsplit]
      · exact absurd h' (by simp)
    · exfalso
      have h' : (none : Option (List Char)) = some r := by
        rw [← h]
        show none = matchGeneric (c :: rest)
        simp [matchGeneric, hc]
      exact absurd h' (by simp)

theorem matchGeneric_of_decomp (body r : List Char) (hne : body ≠ [])
    (hb : ∀ c ∈ body, notGt c = true) :
    matchGeneric ('<' :: body ++ '>' :: r) = some r := by
  have h1 : matchGeneric ('<' :: body ++ '>' :: r) =
      (match (body ++ '>' :: r).dropWhile notGt with
       | '>' :: rr => if (body ++ '>' :: r).takeWhile notGt = [] then none else some rr
       | _ => none) := rfl
  rw [h1, dropWhile_all_append body r hb, takeWhile_all_append body r hb]
  exact if_neg hne

theorem matchGeneric_length {l r : List Char} (h : matchGeneric l = some r) :
    r.length < l.length := by
  obtain ⟨body, rfl, -, -⟩ := matchGeneric_eq_some h
  simp only [List.length_append, List.length_cons]
  omega

theorem matchGeneric_sublist {l r : List Char} (h : matchGeneric l = some r) :
    List.Sublist r l := by
  obtain ⟨body, rfl, -, -⟩ := matchGeneric_eq_some h
  have h1 : List.Sublist r ('>' :: r) := List.Sublist.cons _ (List.Sublist.refl r)
  exact h1.trans (List.sublist_append_right _ _)

theorem matchGeneric_not_lt (c : Char) (l : List Char) (hc : c ≠ '<') :
    matchGeneric (c :: l) = none := by
  simp [matchGeneric, hc]

theorem matchGeneric_cons_gt_none (l : List Char) :
    matchGeneric ('<' :: '>' :: l) = none := rfl

theorem matchGeneric_no_gt (l : List Char) (hl : ∀ x ∈ l, notGt x = true) :
    matchGeneric ('<' :: l) = none := by
  have hdw : l.dropWhile notGt = [] := List.dropWhile_eq_nil_iff.mpr hl
  have h1 : matchGeneric ('<' :: l) =
      (match l.dropWhile notGt with
       | '>' :: rr => if l.takeWhile notGt = [] then none else some rr
       | _ => none) := rfl
  rw [h1, hdw]

theorem dropWhile_head_gt (v : List Char) (d : Char) (tl : List Char)
    (h : v.dropWhile notGt = d :: tl) : d = '>' := by
  have h0 : 0 < (v.dropWhile notGt).length := by rw [h]; simp
  have hnot := List.dropWhile_get_zero_not notGt v h0
  have h00 : (v.dropWhile notGt).get ⟨0, h0⟩ = d := by
    rw [List.get_of_eq h ⟨0, h0⟩]
    rfl
  rw [h00] at hnot
  simpa [notGt] using hnot

theorem matchGeneric_lt_none (cs : List Char) (h : matchGeneric ('<' :: cs) = none) :
    cs.takeWhile notGt = [] ∨ ∀ x ∈ cs, notGt x = true := by
  by_contra hcon
  push_neg at hcon
  obtain ⟨h1, h2⟩ := hcon
  obtain ⟨x0, hx0mem, hx0⟩ := h2
  have h2' : ¬ cs.dropWhile notGt = [] := fun hnil =>
    hx0 ((List.dropWhile_eq_nil_iff.mp hnil) x0 hx0mem)
  obtain ⟨d, tl, hdw⟩ := List.exists_cons_of_ne_nil h2'
  obtain rfl : d = '>' := dropWhile_head_gt cs d tl hdw
  have hsp := List.takeWhile_append_dropWhile notGt cs
  rw [hdw] at hsp
  have hm := matchGeneric_of_decomp (cs.takeWhile notGt) tl h1
    (fun x hx => List.mem_takeWhile_imp hx)
  rw [List.cons_append, hsp] at hm
  rw [hm] at h
  exact absurd h (by simp)

theorem takeWhile_nil_head (e : Char) (es : List Char)
    (h : (e :: es).takeWhile notGt = []) : e = '>' := by
  rw [List.takeWhile_cons] at h
  by_cases he : notGt e = true
  · rw [if_pos he] at h
    exact absurd h (by simp)
  · simpa [notGt] using he

theorem stripTagsF_sublist : ∀ (f : Nat) (l : List Char),
    List.Sublist (stripTagsF f l) l := by
  intro f
  induction f with
  | zero => intro l; exact List.Sublist.refl l
  | succ g ih =>
    intro l
    cases l with
    | nil => exact List.Sublist.refl []
    | cons c cs =>
      cases hm : matchGeneric (c :: cs) with
      | some r =>
        have heq : stripTagsF (g + 1) (c :: cs) = stripTagsF g r := by
          simp [stripTagsF, hm]
        rw [heq]
        exact (ih r).trans (matchGeneric_sublist hm)
      | none =>
        have heq : stripTagsF (g + 1) (c :: cs) = c :: stripTagsF g cs := by
          simp [stripTagsF, hm]
        rw [heq]
        exact List.Sublist.cons₂ c (ih cs)

theorem stripTagsF_gt_head (g : Nat) (es : List Char) :
    ∃ Y, stripTagsF g ('>' :: es) = '>' :: Y := by
  cases g with
  | zero => exact ⟨es, rfl⟩
  | succ g' =>
    have hm : matchGeneric ('>' :: es) = none := matchGeneric_not_lt '>' es (by decide)
    exact ⟨stripTagsF g' es, by simp [stripTagsF, hm]⟩

theorem stripTagsF_noTag : ∀ (f : Nat) (l : List Char), l.length ≤ f →
    hasTag (stripTagsF f l) = false := by
  intro f
  induction f with
  | zero =>
    intro l hl
    obtain rfl : l = [] := List.length_eq_zero.mp (Nat.le_zero.mp hl)
    rfl
  | succ g ih =>
    intro l hl
    cases l with
    | nil => rfl
    | cons c cs =>
      simp only [List.length_cons] at hl
      have hcs : cs.length ≤ g := Nat.succ_le_succ_iff.mp hl
      cases hm : matchGeneric (c :: cs) with
      | some r =>
        have heq : stripTagsF (g + 1) (c :: cs) = stripTagsF g r := by
          simp [stripTagsF, hm]
        rw [heq]
        exact ih r (Nat.le_of_lt_succ (Nat.lt_of_lt_of_le (matchGeneric_length hm) hl))
      | none =>
        have heq : stripTagsF (g + 1) (c :: cs) = c :: stripTagsF g cs := by
          simp [stripTagsF, hm]
        rw [heq]
        have hX : hasTag (stripTagsF g cs) = false := ih cs hcs
        have hnone : matchGeneric (c :: stripTagsF g cs) = none := by
          by_cases hc : c = '<'
          · subst hc
            rcases matchGeneric_lt_none cs hm with htw | hall
            · cases cs with
              | nil =>
                cases g with
                | zero => rfl
                | succ g' => rfl
              | cons e es =>
                obtain rfl : e = '>' := takeWhile_nil_head e es htw
                obtain ⟨Y, hY⟩ := stripTagsF_gt_head g es
                rw [hY]
                exact matchGeneric_cons_gt_none Y
            · exact matchGeneric_no_gt _
                (fun x hx => hall x ((stripTagsF_sublist g cs).mem hx))
          · exact matchGeneric_not_lt c _ hc
        simp [hasTag, hnone, hX]

theorem hasTag_filter (p : Char → Bool) (hp : p '>' = true) :
    ∀ l : List Char, hasTag l = false → hasTag (l.filter p) = false := by
  intro l
  induction l with
  | nil => intro h; rfl
  | cons c cs ih =>
    intro h
    simp only [hasTag, Bool.or_eq_false_iff] at h
    obtain ⟨h1, hcs⟩ := h
    have hmg : matchGeneric (c :: cs) = none := by
      cases hq : matchGeneric (c :: cs) with
      | none => rfl
      | some r => rw [hq] at h1; simp at h1
    have hX := ih hcs
    rw [List.filter_cons]
    by_cases hpc : p c = true
    · rw [if_pos hpc]
      have hnone : matchGeneric (c :: cs.filter p) = none := by
        by_cases hc : c = '<'
        · subst hc
          rcases matchGeneric_lt_none cs hmg with htw | hall
          · cases cs with
            | nil => rfl
            | cons e es =>
              obtain rfl : e = '>' := takeWhile_nil_head e es htw
              rw [List.filter_cons, if_pos hp]
              exact matchGeneric_cons_gt_none _
          · exact matchGeneric_no_gt _
              (fun x hx => hall x (List.mem_of_mem_filter hx))
        · exact matchGeneric_not_lt c _ hc
      simp [hasTag, hnone, hX]
    · rw [if_neg hpc]
      exact hX

/-! ### Character-membership lemmas for the substitution passes -/

theorem matchCI_subset : ∀ (nm l r : List Char), matchCI nm l = some r →
    ∀ c ∈ r, c ∈ l := by
  intro nm
  induction nm with
  | nil =>
    intro l r h c hc
    obtain rfl : l = r := by injection h
    exact hc
  | cons p ps ih =>
    intro l r h c hc
    cases l with
    | nil => exact absurd h (by simp [matchCI])
    | cons a as =>
      have h' : (if a.toLower = p then matchCI ps as else none) = some r := h
      by_cases ha : a.toLower = p
      · rw [if_pos ha] at h'
        exact List.mem_cons_of_mem a (ih as r h' c hc)
      · rw [if_neg ha] at h'
        exact absurd h' (by simp)

theorem dropSpaces_subset (l : List Char) : ∀ c ∈ dropSpaces l, c ∈ l := by
  intro c hc
  have hsp := List.takeWhile_append_dropWhile isSpaceChar l
  rw [← hsp]
  exact List.mem_append_right _ hc

theorem matchNameGt_subset : ∀ (names : List (List Char)) (l r : List Char),
    matchNameGt names l = some r → ∀ c ∈ r, c ∈ l := by
  intro names
  induction names with
  | nil => intro l r h; exact absurd h (by simp [matchNameGt])
  | cons nm ns ih =>
    intro l r h c hc
    have h' : (match matchCI nm l with
        | some r0 =>
          match dropSpaces r0 with
          | '>' :: r2 => some r2
          | _ => matchNameGt ns l
        | none => matchNameGt ns l) = some r := h
    cases hci : matchCI nm l with
    | none =>
      rw [hci] at h'
      exact ih l r h' c hc
    | some r0 =>
      rw [hci] at h'
      have h'' : (match dropSpaces r0 with
          | '>' :: r2 => some r2
          | _ => matchNameGt ns l) = some r := h'
      split at h''
      · next r2 hds =>
        obtain rfl : r2 = r := by injection h''
        have hc2 : c ∈ dropSpaces r0 := by
          rw [hds]
          exact List.mem_cons_of_mem _ hc
        exact matchCI_subset nm l r0 hci c (dropSpaces_subset r0 c hc2)
      · exact ih l r h'' c hc

theorem matchOpen_subset (names : List (List Char)) (l r : List Char)
    (h : matchOpen names l = some r) : ∀ c ∈ r, c ∈ l := by
  cases l with
  | nil => exact absurd h (by simp [matchOpen])
  | cons a rest =>
    intro c hc
    have h' : (if a = '<' then matchNameGt names (dropSpaces rest) else none) = some r := h
    by_cases ha : a = '<'
    · rw [if_pos ha] at h'
      exact List.mem_cons_of_mem a
        (dropSpaces_subset rest c (matchNameGt_subset names _ r h' c hc))
    · rw [if_neg ha] at h'
      exact absurd h' (by simp)

theorem matchClose_subset (names : List (List Char)) (l r : List Char)
    (h : matchClose names l = some r) : ∀ c ∈ r, c ∈ l := by
  cases l with
  | nil => exact absurd h (by simp [matchClose])
  | cons a rest =>
    intro c hc
    have h' : (if a = '<' then
        (match dropSpaces rest with
         | '/' :: r2 => matchNameGt names (dropSpaces r2)
         | _ => none)
      else none) = some r := h
    by_cases ha : a = '<'
    · rw [if_pos ha] at h'
      split at h'
      · next r2 hds =>
        have hc2 : c ∈ dropSpaces r2 := matchNameGt_subset names _ r h' c hc
        have hc3 : c ∈ r2 := dropSpaces_subset r2 c hc2
        have hc4 : c ∈ dropSpaces rest := by
          rw [hds]
          exact List.mem_cons_of_mem _ hc3
        exact List.mem_cons_of_mem a (dropSpaces_subset rest c hc4)
      · exact absurd h' (by simp)
    · rw [if_neg ha] at h'
      exact absurd h' (by simp)

theorem findClose_subset : ∀ (names : List (List Char)) (l content rest : List Char),
    findClose names l = some (content, rest) →
    (∀ c ∈ content, c ∈ l) ∧ ∀ c ∈ rest, c ∈ l := by
  intro names l
  induction l with
  | nil => intro content rest h; exact absurd h (by simp [findClose])
  | cons a as ih =>
    intro content rest h
    have h' : (match matchClose names (a :: as) with
        | some rest0 => some (([] : List Char), rest0)
        | none =>
          if a = '\n' then none
          else
            match findClose names as with
            | some (content0, rest0) => some (a :: content0, rest0)
            | none => none) = some (content, rest) := h
    cases hmc : matchClose names (a :: as) with
    | some rest0 =>
      rw [hmc] at h'
      have hpair : Prod.mk ([] : List Char) rest0 = Prod.mk content rest := by
        injection h'
      injection hpair with h1 h2
      subst h1
      subst h2
      exact ⟨fun c hc => absurd hc (by simp),
        fun c hc => matchClose_subset names (a :: as) _ hmc c hc⟩
    | none =>
      rw [hmc] at h'
      by_cases ha : a = '\n'
      · rw [if_pos ha] at h'
        exact absurd h' (by simp)
      · rw [if_neg ha] at h'
        cases hfc : findClose names as with
        | none =>
          rw [hfc] at h'
          exact absurd h' (by simp)
        | some pr =>
          rw [hfc] at h'
          have hpair : Prod.mk (a :: pr.1) pr.2 = Prod.mk content rest := by
            injection h'
          injection hpair with h1 h2
          subst h1
          subst h2
          obtain ⟨ih1, ih2⟩ := ih pr.1 pr.2 (by rw [hfc])
          refine ⟨?_, fun c hc => List.mem_cons_of_mem a (ih2 c hc)⟩
          intro c hc
          rcases List.mem_cons.mp hc with rfl | hc'
          · exact List.mem_cons_self _ _
          · exact List.mem_cons_of_mem a (ih1 c hc')

theorem tryMatch_subset (names : List (List Char)) (wl wr l rep rest : List Char)
    (h : tryMatch names wl wr l = some (rep, rest)) :
    (∀ c ∈ rep, c ∈ wl ∨ c ∈ wr ∨ c ∈ l) ∧ ∀ c ∈ rest, c ∈ l := by
  cases ho : matchOpen names l with
  | none =>
    simp only [tryMatch, ho] at h
    exact absurd h (by simp)
  | some ao =>
    cases hf : findClose names ao with
    | none =>
      simp only [tryMatch, ho, hf] at h
      exact absurd h (by simp)
    | some pr =>
      obtain ⟨cont, rest0⟩ := pr
      have h2 : tryMatch names wl wr l = some (wl ++ cont ++ wr, rest0) := by
        simp only [tryMatch, ho, hf]
      rw [h2] at h
      have hpair : Prod.mk (wl ++ cont ++ wr) rest0 = Prod.mk rep rest := by
        injection h
      injection hpair with h1 h3
      subst h1
      subst h3
      obtain ⟨hf1, hf2⟩ := findClose_subset names ao cont rest0 hf
      have hao := matchOpen_subset names l ao ho
      refine ⟨?_, fun c hc => hao c (hf2 c hc)⟩
      intro c hc
      rcases List.mem_append.mp hc with hc1 | hc2
      · rcases List.mem_append.mp hc1 with hcw | hcc
        · exact Or.inl hcw
        · exact Or.inr (Or.inr (hao c (hf1 c hcc)))
      · exact Or.inr (Or.inl hc2)

theorem subTagsF_subset (names : List (List Char)) (wl wr : List Char) :
    ∀ (f : Nat) (l : List Char), ∀ c ∈ subTagsF names wl wr f l,
      c ∈ wl ∨ c ∈ wr ∨ c ∈ l := by
  intro f
  induction f with
  | zero => intro l c hc; exact Or.inr (Or.inr hc)
  | succ g ih =>
    intro l c hc
    cases l with
    | nil => exact absurd hc (by simp [subTagsF])
    | cons a as =>
      cases ht : tryMatch names wl wr (a :: as) with
      | some pr =>
        have heq : subTagsF names wl wr (g + 1) (a :: as) =
            pr.1 ++ subTagsF names wl wr g pr.2 := by
          rw [subTagsF, ht]
        rw [heq] at hc
        obtain ⟨h1, h2⟩ := tryMatch_subset names wl wr (a :: as) pr.1 pr.2 (by rw [ht])
        rcases List.mem_append.mp hc with hc1 | hc2
        · exact h1 c hc1
        · rcases ih pr.2 c hc2 with hx | hx | hx
          · exact Or.inl hx
          · exact Or.inr (Or.inl hx)
          · exact Or.inr (Or.inr (h2 c hx))
      | none =>
        have heq : subTagsF names wl wr (g + 1) (a :: as) =
            a :: subTagsF names wl wr g as := by
          rw [subTagsF, ht]
        rw [heq] at hc
        rcases List.mem_cons.mp hc with rfl | hc'
        · exact Or.inr (Or.inr (List.mem_cons_self _ _))
        · rcases ih as c hc' with hx | hx | hx
          · exact Or.inl hx
          · exact Or.inr (Or.inl hx)
          · exact Or.inr (Or.inr (List.mem_cons_of_mem a hx))

theorem nfcNormalize_id (l : List Char) (h : ∀ c ∈ l, c ≠ '\u0338') :
    nfcNormalize l = l := by
  induction l with
  | nil => rfl
  | cons a tl ih =>
    cases tl with
    | nil => rfl
    | cons b rest =>
      have hb : b ≠ '\u0338' := h b (by simp)
      have heq : nfcNormalize (a :: b :: rest) = a :: nfcNormalize (b :: rest) := by
        show (if a = '<' && b = '\u0338' then '\u226E' :: nfcNormalize rest
          else if a = '>' && b = '\u0338' then '\u226F' :: nfcNormalize rest
          else a :: nfcNormalize (b :: rest)) = a :: nfcNormalize (b :: rest)
        rw [if_neg (by simp [hb]), if_neg (by simp [hb])]
      rw [heq, ih (fun c hc => h c (List.mem_cons_of_mem a hc))]

/-- C3 (amended): for every input string that does not contain the
combining long solidus overlay U+0338, the output of the text cleaner
contains no substring matching the tag pattern (an opening angle
bracket, one or more non-closing characters, a closing angle bracket)
after the four tag-processing steps, NFC normalization and
control-character stripping.  The original unrestricted claim is false:
NFC can compose a closing bracket with U+0338 into U+226F after tag
stripping, creating such a substring (see the counterexample). -/
theorem clean_text_no_tags (s : String)
    (hs : ∀ c ∈ s.data, c ≠ '\u0338') :
    hasTag (clean_text s).data = false := by
  have h1 : ∀ c ∈ subTags [bChars, strongChars] ['*', '*'] ['*', '*'] s.data,
      c ≠ '\u0338' := by
    intro c hc
    rcases subTagsF_subset _ _ _ _ _ c hc with hx | hx | hx
    · intro he; subst he; exact absurd hx (by decide)
    · intro he; subst he; exact absurd hx (by decide)
    · exact hs c hx
  have h2 : ∀ c ∈ subTags [iChars, emChars] ['*'] ['*']
      (subTags [bChars, strongChars] ['*', '*'] ['*', '*'] s.data), c ≠ '\u0338' := by
    intro c hc
    rcases subTagsF_subset _ _ _ _ _ c hc with hx | hx | hx
    · intro he; subst he; exact absurd hx (by decide)
    · intro he; subst he; exact absurd hx (by decide)
    · exact h1 c hx
  have h3 : ∀ c ∈ subTags [uChars] ['_'] ['_'] (subTags [iChars, emChars] ['*'] ['*']
      (subTags [bChars, strongChars] ['*', '*'] ['*', '*'] s.data)), c ≠ '\u0338' := by
    intro c hc
    rcases subTagsF_subset _ _ _ _ _ c hc with hx | hx | hx
    · intro he; subst he; exact absurd hx (by decide)
    · intro he; subst he; exact absurd hx (by decide)
    · exact h2 c hx
  have h4 : ∀ c ∈ stripTags (subTags [uChars] ['_'] ['_']
      (subTags [iChars, emChars] ['*'] ['*']
        (subTags [bChars, strongChars] ['*', '*'] ['*', '*'] s.data))), c ≠ '\u0338' :=
    fun c hc => h3 c ((stripTagsF_sublist _ _).mem hc)
  have hT : hasTag (stripTags (subTags [uChars] ['_'] ['_']
      (subTags [iChars, emChars] ['*'] ['*']
        (subTags [bChars, strongChars] ['*', '*'] ['*', '*'] s.data)))) = false :=
    stripTagsF_noTag _ _ le_rfl
  show hasTag ((nfcNormalize (stripTags (subTags [uChars] ['_'] ['_']
      (subTags [iChars, emChars] ['*'] ['*']
        (subTags [bChars, strongChars] ['*', '*'] ['*', '*'] s.data))))).filter
      keepChar) = false
  rw [nfcNormalize_id _ h4]
  exact hasTag_filter keepChar (by decide) _ hT

/-- Witness for the amended C3 at a U+0338-free input with tags. -/
theorem clean_text_no_tags_witness :
    (∀ c ∈ "<b>hi</b> x".data, c ≠ '\u0338') ∧
    hasTag (clean_text "<b>hi</b> x").data = false :=
  ⟨by decide, clean_text_no_tags "<b>hi</b> x" (by decide)⟩

/-- Counterexample to C3 as stated: the input holds no tag (its opening
bracket is immediately followed by a closing one), so tag removal leaves
it unchanged, but NFC composes the closing bracket with the following
U+0338 into U+226F, and the output contains a substring matching the
generic tag pattern. -/
theorem clean_text_no_tags_counterexample :
    clean_text "<>\u0338x>" = "<\u226Fx>" ∧
    hasTag (clean_text "<>\u0338x>").data = true :=
  ⟨by decide, by decide⟩

theorem matchCI_decomp : ∀ (nm l r : List Char), matchCI nm l = some r →
    ∃ pre, l = pre ++ r ∧ pre.length = nm.length ∧
      ∀ c ∈ pre, ∃ p ∈ nm, c.toLower = p := by
  intro nm
  induction nm with
  | nil =>
    intro l r h
    obtain rfl : l = r := by injection h
    exact ⟨[], by simp⟩
  | cons p ps ih =>
    intro l r h
    cases l with
    | nil => exact absurd h (by simp [matchCI])
    | cons c cs =>
      have h' : (if c.toLower = p then matchCI ps cs else none) = some r := h
      by_cases hc : c.toLower = p
      · rw [if_pos hc] at h'
        obtain ⟨pre, rfl, hlen, hmem⟩ := ih cs r h'
        refine ⟨c :: pre, rfl, by simp [hlen], ?_⟩
        intro d hd
        rcases List.mem_cons.mp hd with rfl | hd'
        · exact ⟨p, by simp, hc⟩
        · obtain ⟨q, hq, hq2⟩ := hmem d hd'
          exact ⟨q, by simp [hq], hq2⟩
      · rw [if_neg hc] at h'
        exact absurd h' (by simp)

theorem isSpaceChar_notGt (c : Char) (h : isSpaceChar c = true) : notGt c = true := by
  have h2 := h
  simp only [isSpaceChar, Bool.or_eq_true, decide_eq_true_eq] at h2
  rcases h2 with (((((rfl | rfl) | rfl) | rfl) | rfl) | rfl) <;> decide

theorem dropSpaces_decomp (l : List Char) :
    ∃ sp, l = sp ++ dropSpaces l ∧ ∀ c ∈ sp, notGt c = true :=
  ⟨l.takeWhile isSpaceChar,
    (List.takeWhile_append_dropWhile isSpaceChar l).symm,
    fun c hc => isSpaceChar_notGt c (List.mem_takeWhile_imp hc)⟩

theorem matchNameGt_decomp : ∀ (names : List (List Char)) (l r : List Char),
    goodNames names = true → matchNameGt names l = some r →
    ∃ pre, l = pre ++ '>' :: r ∧ pre ≠ [] ∧ ∀ c ∈ pre, notGt c = true := by
  intro names
  induction names with
  | nil => intro l r _ h; exact absurd h (by simp [matchNameGt])
  | cons nm ns ih =>
    intro l r hg h
    have hgp := (List.all_eq_true.mp hg) nm (by simp)
    simp only [Bool.and_eq_true, Bool.not_eq_true'] at hgp
    have hgnm1 : nm ≠ [] := by
      intro hnil
      rw [hnil] at hgp
      exact absurd hgp.1 (by simp)
    have hgnm2 : ∀ c ∈ nm, c ≠ '>' := by
      intro c hc hcgt
      subst hcgt
      have h3 : nm.contains '>' = true := by
        show nm.elem '>' = true
        rw [List.elem_eq_mem]
        exact decide_eq_true hc
      rw [h3] at hgp
      exact absurd hgp.2 (by simp)
    have hgns : goodNames ns = true := by
      simp only [goodNames, List.all_eq_true] at hg ⊢
      exact fun nm2 h2 => hg nm2 (by simp [h2])
    have h' : (match matchCI nm l with
        | some r0 =>
          match dropSpaces r0 with
          | '>' :: r2 => some r2
          | _ => matchNameGt ns l
        | none => matchNameGt ns l) = some r := h
    cases hci : matchCI nm l with
    | none =>
      rw [hci] at h'
      exact ih l r hgns h'
    | some r0 =>
      rw [hci] at h'
      have h'' : (match dropSpaces r0 with
          | '>' :: r2 => some r2
          | _ => matchNameGt ns l) = some r := h'
      split at h''
      · next r2 hds =>
        obtain rfl : r2 = r := by injection h''
        obtain ⟨pre1, rfl, hlen, hmem⟩ := matchCI_decomp nm _ r0 hci
        obtain ⟨sp, hsp, hspmem⟩ := dropSpaces_decomp r0
        rw [hds] at hsp
        refine ⟨pre1 ++ sp, by rw [List.append_assoc, ← hsp], ?_, ?_⟩
        · intro hnil
          have h0 := List.append_eq_nil.mp hnil
          rw [h0.1] at hlen
          exact hgnm1 (List.length_eq_zero.mp hlen.symm)
        · intro c hc
          rcases List.mem_append.mp hc with hc1 | hc2
          · obtain ⟨q, hq, hq2⟩ := hmem c hc1
            have hcne : c ≠ '>' := by
              intro hcg
              subst hcg
              have hlow : ('>' : Char).toLower = '>' := by decide
              rw [hlow] at hq2
              exact hgnm2 q hq hq2.symm
            simpa [notGt] using hcne
          · exact hspmem c hc2
      · exact ih l r hgns h''

theorem matchOpen_matchGeneric (names : List (List Char)) (l r : List Char)
    (hg : goodNames names = true) (h : matchOpen names l = some r) :
    matchGeneric l = some r := by
  cases l with
  | nil => exact absurd h (by simp [matchOpen])
  | cons c rest =>
    have h' : (if c = '<' then matchNameGt names (dropSpaces rest) else none) = some r := h
    by_cases hc : c = '<'
    · subst hc
      rw [if_pos rfl] at h'
      obtain ⟨pre, hpre, hne, hmem⟩ := matchNameGt_decomp names (dropSpaces rest) r hg h'
      obtain ⟨sp, hsp, hspmem⟩ := dropSpaces_decomp rest
      rw [hpre] at hsp
      have hbody : ∀ c ∈ sp ++ pre, notGt c = true := by
        intro c hc
        rcases List.mem_append.mp hc with h1 | h2
        · exact hspmem c h1
        · exact hmem c h2
      have hbne : sp ++ pre ≠ [] := by
        intro hnil
        exact hne (List.append_eq_nil.mp hnil).2
      have := matchGeneric_of_decomp (sp ++ pre) r hbne hbody
      rw [List.cons_append, List.append_assoc, ← hsp] at this
      exact this
    · rw [if_neg hc] at h'
      exact absurd h' (by simp)

theorem tryMatch_eq_none (names : List (List Char)) (wl wr l : List Char)
    (hg : goodNames names = true) (h : matchGeneric l = none) :
    tryMatch names wl wr l = none := by
  cases ho : matchOpen names l with
  | none => simp [tryMatch, ho]
  | some afterOpen =>
    have := matchOpen_matchGeneric names l afterOpen hg ho
    rw [this] at h
    exact absurd h (by simp)

theorem hasTag_cons_parts {c : Char} {cs : List Char} (h : hasTag (c :: cs) = false) :
    matchGeneric (c :: cs) = none ∧ hasTag cs = false := by
  simp only [hasTag, Bool.or_eq_false_iff] at h
  refine ⟨?_, h.2⟩
  cases hq : matchGeneric (c :: cs) with
  | none => rfl
  | some r =>
    rw [hq] at h
    exact absurd h.1 (by simp)

theorem subTagsF_id (names : List (List Char)) (wl wr : List Char)
    (hg : goodNames names = true) :
    ∀ (f : Nat) (l : List Char), hasTag l = false → subTagsF names wl wr f l = l := by
  intro f
  induction f with
  | zero => intro l _; rfl
  | succ g ih =>
    intro l hl
    cases l with
    | nil => rfl
    | cons c cs =>
      obtain ⟨hmg, hcs⟩ := hasTag_cons_parts hl
      have ht : tryMatch names wl wr (c :: cs) = none :=
        tryMatch_eq_none names wl wr (c :: cs) hg hmg
      simp only [subTagsF, ht]
      rw [ih cs hcs]

theorem subTags_id (names : List (List Char)) (wl wr : List Char) (l : List Char)
    (hg : goodNames names = true) (hl : hasTag l = false) :
    subTags names wl wr l = l :=
  subTagsF_id names wl wr hg l.length l hl

theorem stripTags_id_aux : ∀ (f : Nat) (l : List Char), hasTag l = false →
    stripTagsF f l = l := by
  intro f
  induction f with
  | zero => intro l _; rfl
  | succ g ih =>
    intro l hl
    cases l with
    | nil => rfl
    | cons c cs =>
      obtain ⟨hmg, hcs⟩ := hasTag_cons_parts hl
      simp only [stripTagsF, hmg]
      rw [ih cs hcs]

theorem stripTags_id (l : List Char) (hl : hasTag l = false) : stripTags l = l :=
  stripTags_id_aux l.length l hl

theorem clean_text_fixed (s : String) (h1 : hasTag s.data = false)
    (h2 : ∀ c ∈ s.data, keepChar c = true)
    (h3 : nfcNormalize s.data = s.data) : clean_text s = s := by
  show String.mk ((nfcNormalize (stripTags (subTags [uChars] ['_'] ['_']
    (subTags [iChars, emChars] ['*'] ['*']
      (subTags [bChars, strongChars] ['*', '*'] ['*', '*'] s.data))))).filter keepChar) = s
  rw [subTags_id _ _ _ _ (by decide) h1, subTags_id _ _ _ _ (by decide) h1,
    subTags_id _ _ _ _ (by decide) h1]
  show String.mk ((nfcNormalize (stripTags s.data)).filter keepChar) = s
  rw [stripTags_id s.data h1, h3, List.filter_eq_self.mpr h2]

/-- C7: the text cleaner is idempotent on strings that contain no tags,
are NFC-normalized (a fixed point of the normalization pass, the claim's
"NFC-normalized" condition), and consist only of printable characters
(plus tab, newline, carriage return). -/
theorem clean_text_idempotent (x : String) (h1 : hasTag x.data = false)
    (h2 : ∀ c ∈ x.data, keepChar c = true)
    (h3 : nfcNormalize x.data = x.data) :
    clean_text (clean_text x) = clean_text x := by
  rw [clean_text_fixed x h1 h2 h3]
  exact clean_text_fixed x h1 h2 h3

/-- Witness for C7 at the tagless printable string "hello, world". -/
theorem clean_text_idempotent_witness :
    hasTag "hello, world".data = false ∧ (∀ c ∈ "hello, world".data, keepChar c = true) ∧
    nfcNormalize "hello, world".data = "hello, world".data ∧
    clean_text (clean_text "hello, world") = clean_text "hello, world" :=
  ⟨by decide, by decide, by decide,
    clean_text_idempotent "hello, world" (by decide) (by decide) (by decide)⟩

/-- C9: bold, italic and underline tags are converted to their markdown
equivalents on the specific input of the spec. -/
theorem clean_text_tag_conversion :
    clean_text "<b>hi</b> <i>there</i> <u>x</u>" = "**hi** *there* _x_" := by
  decide


/-! ### Projection and driver claims -/

/-- C5: projection selects exactly the cells at the listed indices that
are valid for the row, in index-list order with duplicates preserved,
silently omitting out-of-range indices; in particular header A,B,C,D
with indices [2,0,2] projects to C,A,C. -/
theorem projectRow_spec :
    (∀ (cols : List Nat) (row : List String),
      projectRow cols row =
        (cols.filter (fun i => decide (i < row.length))).map
          (fun i => List.getD row i "")) ∧
    projectRow [2, 0, 2] ["A", "B", "C", "D"] = ["C", "A", "C"] := by
  constructor
  · intro cols row
    induction cols with
    | nil => rfl
    | cons i is ih =>
      by_cases h : i < row.length
      · have hg : row.get? i = some (List.getD row i "") := by
          rw [List.get?_eq_getElem?, List.getD_eq_getElem _ _ h]
          exact List.getElem?_eq_getElem h
        have h1 : projectRow (i :: is) row = List.getD row i "" :: projectRow is row := by
          show List.filterMap (fun j => row.get? j) (i :: is) = _
          rw [List.filterMap_cons, hg]
          rfl
        have h2 : List.filter (fun j => decide (j < row.length)) (i :: is) =
            i :: List.filter (fun j => decide (j < row.length)) is := by
          rw [List.filter_cons, if_pos (by simpa using h)]
        rw [h1, h2, List.map_cons, ih]
      · have hg : row.get? i = none := by
          rw [List.get?_eq_getElem?]
          exact List.getElem?_eq_none (Nat.le_of_not_lt h)
        have h1 : projectRow (i :: is) row = projectRow is row := by
          show List.filterMap (fun j => row.get? j) (i :: is) = _
          rw [List.filterMap_cons, hg]
          rfl
        have h2 : List.filter (fun j => decide (j < row.length)) (i :: is) =
            List.filter (fun j => decide (j < row.length)) is := by
          rw [List.filter_cons, if_neg (by simpa using h)]
        rw [h1, h2, ih]
  · decide

/-- C4: when the input file exists but contains zero rows (the header
cannot be read), both filter functions report the is-empty diagnostic
naming the input file, abort, and write no output rows. -/
theorem empty_input_reported (inp out : String) (cols : List Nat) :
    (questionnaire.filter_csv_columns inp out (some []) cols).written = [] ∧
    (questionnaire.filter_csv_columns inp out (some []) cols).message =
      "Error: \x27" ++ inp ++ "\x27 is empty." ∧
    (task_data.filter_csv_columns inp out (some []) cols).written = [] ∧
    (task_data.filter_csv_columns inp out (some []) cols).message =
      "Error: \x27" ++ inp ++ "\x27 is empty." :=
  ⟨rfl, rfl, rfl, rfl⟩

/-- C8: when the input path does not resolve to a readable file, the
function reports the not-found message naming the input file, the call
aborts, and the output file is neither created nor written (the input
file is opened before the output file, so the exception pre-empts the
output open). -/
theorem missing_input_reported (inp out : String) (cols : List Nat) :
    (questionnaire.filter_csv_columns inp out none cols).outputCreated = false ∧
    (questionnaire.filter_csv_columns inp out none cols).written = [] ∧
    (questionnaire.filter_csv_columns inp out none cols).message =
      "Error: File \x27" ++ inp ++ "\x27 not found." :=
  ⟨rfl, rfl, rfl⟩

/-- C6: the projected header row is always the first output row and is
never run-sampled; the kept data rows appear in their original relative
order and no input row position contributes more than once beyond the
explicit keep-first-and-fourth rule (the sampled rows form a sublist of
the input data rows). -/
theorem output_invariants (inp out : String) (cols : List Nat)
    (header : List String) (rows : List (List String)) :
    (task_data.filter_csv_columns inp out (some (header :: rows)) cols).written.head? =
      some (projectRow cols header) ∧
    List.Sublist (sample rows) rows ∧
    (task_data.filter_csv_columns inp out (some (header :: rows)) cols).written.tail =
      (sample rows).map (fun row => (projectRow cols row).map clean_text) :=
  ⟨rfl, sample_sublist rows, rfl⟩

/-- C10: selected header cells are written verbatim, never passed
through the text cleaner, while every selected data cell is cleaned; in
particular a header cell holding an HTML tag is emitted unchanged while
the same cell in a data row is converted to markdown. -/
theorem header_not_cleaned (inp out : String) (cols : List Nat)
    (header : List String) (rows : List (List String)) :
    ((questionnaire.filter_csv_columns inp out (some (header :: rows)) cols).written.head? =
      some (projectRow cols header) ∧
     (questionnaire.filter_csv_columns inp out (some (header :: rows)) cols).written.tail =
      rows.map (fun row => (projectRow cols row).map clean_text)) ∧
    (questionnaire.filter_csv_columns "in.csv" "out.csv"
      (some [["<b>T</b>"], ["<b>T</b>"]]) [0]).written =
      [["<b>T</b>"], ["**T**"]] :=
  ⟨⟨rfl, rfl⟩, by decide⟩

end PDE
